import Mathlib

/-!
# Verification of the service-store dependency-injection container

A shallow embedding of the resolution engine in `src/mod.ts` (the later,
fully documented revision of the file, which the specification adopts where
the two shipped revisions diverge): the immutable builder `StoreDefinition`
and the resolved container `Store` with lazy memoized resolution,
parent/child scoping, transient bindings, asynchronous settlement and
synchronous/asynchronous disposal.

Modelling choices, each mirroring a concrete construct of the source:

* A `Store` together with its ancestor chain is a list of `Frame`s; the head
  is the store itself (`this`), the tail is `this.#parent` and its ancestors.
  Each frame holds the frozen factory map and the mutable memo table.
* Factory functions are heap references (`Nat`) into a `facHeap`, because
  `addTransient` mutates the factory *object* (`value.transient = true`);
  the transient tag is therefore a property of the heap record, read at
  `get` time, exactly as the source reads `factory.transient`.
* A factory body either returns a fresh plain object (`FKind.prim`),
  returns a fresh pending promise (`FKind.promise`), or resolves another
  binding through the same container and returns it (`FKind.aliasOf other`,
  the shape `(store) => store.get("other")` used by the repository's own
  tests). `get` re-entry through an alias consumes fuel, since cycles are
  the caller's responsibility in the source.
* Promises live in a heap with a status (pending / fulfilled / rejected)
  and a list of attached continuations; `Store.get` attaches the
  `.then`/`.catch` pair of the source as a `(depth, name)` continuation,
  and `settle` applies them: on success the memo entry is replaced by a
  `promisify` marker holding the settled value, on failure the memo entry
  is deleted. `Promise.resolve(v)` re-wrapping creates a fresh,
  already-fulfilled promise.
* Plain objects carry their disposal capabilities inline
  (`Symbol.dispose` / `Symbol.asyncDispose` present or not), which is what
  the disposal loops probe structurally.
* Ghost instrumentation (`invocations`, `transientCreated`) logs factory
  invocations and the ids of objects created by transient factories; it is
  write-only bookkeeping that no operational definition reads.
-/

namespace ServiceStore

deriving instance DecidableEq for Except

/-- Association-list lookup (string/number keyed records of the source). -/
def alook {κ α : Type} [DecidableEq κ] : List (κ × α) → κ → Option α
  | [], _ => none
  | (k, v) :: rest, k' => if k = k' then some v else alook rest k'

/-- Association-list update: replace the binding if the key is present,
append it otherwise (JS `obj[k] = v`). -/
def aset {κ α : Type} [DecidableEq κ] : List (κ × α) → κ → α → List (κ × α)
  | [], k, v => [(k, v)]
  | (k0, v0) :: rest, k, v =>
    if k0 = k then (k, v) :: rest else (k0, v0) :: aset rest k v

/-- Association-list deletion (JS `delete obj[k]`). -/
def aerase {κ α : Type} [DecidableEq κ] : List (κ × α) → κ → List (κ × α)
  | [], _ => []
  | (k0, v0) :: rest, k =>
    if k0 = k then rest else (k0, v0) :: aerase rest k

/-- Disposal capabilities of a constructed plain object, probed structurally
by the disposal loops of the source (`value[Symbol.dispose] instanceof
Function`, `value[Symbol.asyncDispose] instanceof Function`), plus whether
its asynchronous teardown rejects when invoked. -/
structure ObjSpec where
  hasSyncDispose : Bool
  hasAsyncDispose : Bool
  asyncDisposeFails : Bool
deriving DecidableEq, Repr

/-- A runtime value: a plain object with an identity and capabilities, or a
promise object with an identity into the promise heap. -/
inductive Val where
  | obj (id : Nat) (spec : ObjSpec)
  | promise (id : Nat)
deriving DecidableEq, Repr

/-- Identity of a value (JS reference identity). -/
def valId : Val → Nat
  | Val.obj i _ => i
  | Val.promise i => i

/-- Disposal capabilities of a value; promise objects expose none. -/
def valSpec : Val → ObjSpec
  | Val.obj _ s => s
  | Val.promise _ => ⟨false, false, false⟩

/-- What a factory body does when invoked with the store. -/
inductive FKind where
  | prim (os : ObjSpec)
  | promise
  | aliasOf (other : String)
deriving DecidableEq, Repr

/-- A factory object on the heap: the out-of-band `transient` tag that
`addTransient` writes onto the function object, and the body's behavior. -/
structure FacSpec where
  transient : Bool
  kind : FKind
deriving DecidableEq, Repr

/-- The default spec used to totalize heap lookups (factory references are
always valid in the source, where a factory is a live function object). -/
def defaultFacSpec : FacSpec := ⟨false, FKind.prim ⟨false, false, false⟩⟩

/-- Totalized factory-heap lookup. -/
def lookupSpec (h : List (Nat × FacSpec)) (fid : Nat) : FacSpec :=
  (alook h fid).getD defaultFacSpec

/-- One memo-table entry of `Store.#memoizedValues`: the optional
`promisify` marker and the stored value. -/
structure MemoEntry where
  promisify : Bool
  value : Val
deriving DecidableEq, Repr

/-- One store of the parent chain: the frozen factory map (name to factory
heap reference) and the mutable memo table. -/
structure Frame where
  factories : List (String × Nat)
  memo : List (String × MemoEntry)
deriving DecidableEq, Repr

/-- Status of a promise in the promise heap. -/
inductive PStatus where
  | pending
  | fulfilled (v : Val)
  | rejected (e : Nat)
deriving DecidableEq, Repr

/-- A promise record: its status and the continuations attached by
`Store.get`'s `.then`/`.catch` pair, each remembering which frame's memo
entry for which name it must update on settlement. -/
structure PromiseRec where
  status : PStatus
  cont : List (Nat × String)
deriving DecidableEq, Repr

/-- The parts of the world that are not the frame chain: the factory heap,
the promise heap, a fresh-identity counter, and ghost logs of factory
invocations and of objects created by transient factory invocations. -/
structure Ghost where
  facHeap : List (Nat × FacSpec)
  promises : List (Nat × PromiseRec)
  nextId : Nat
  invocations : List Nat
  transientCreated : List Nat
deriving DecidableEq, Repr

/-- Errors a `get` can produce: the source's unknown-binding throw, plus
fuel exhaustion of the shallow embedding (a factory re-entry cycle, which
in the source is a stack overflow left to the caller to avoid). -/
inductive GErr where
  | unknownBinding
  | fuelOut
deriving DecidableEq, Repr

/-- `Store.has(name)`: `name in this.#factories || this.#parent?.has(name)`. -/
def hasChain : List Frame → String → Bool
  | [], _ => false
  | f :: rest, name => (alook f.factories name).isSome || hasChain rest name

/-- Attach a continuation to a promise (a `.then`/`.catch` registration). -/
def addCont (ps : List (Nat × PromiseRec)) (pid : Nat) (c : Nat × String) :
    List (Nat × PromiseRec) :=
  match alook ps pid with
  | some rec => aset ps pid ⟨rec.status, rec.cont ++ [c]⟩
  | none => ps

/-- Apply a frame update at a given depth of the chain. -/
def modFrame : List Frame → Nat → (Frame → Frame) → List Frame
  | [], _, _ => []
  | f :: rest, 0, φ => φ f :: rest
  | f :: rest, d + 1, φ => f :: modFrame rest d φ

/-- `Store.get(name)`, the later revision of the source, on the suffix of
the parent chain whose head is `this`:

1. if the memo has an entry, return it: a `promisify` entry is re-wrapped
   as a fresh already-fulfilled promise (`Promise.resolve(entry.value)`),
   any other entry is returned as-is (the identical value or in-flight
   promise);
2. otherwise, if no local factory exists, delegate to the parent when
   `parent.has(name)` and throw unknown-binding otherwise;
3. otherwise invoke the factory; a transient factory's value is returned
   directly with no memo write; a singleton's value is memoized
   immediately, and if it is a promise, success/failure continuations are
   attached first (`value.then(...).catch(...)`).

`fuel` bounds the recursion depth (parent hops and alias re-entries);
`d` is the absolute depth of the head frame in the full chain, recorded in
promise continuations so settlement can find the right memo table. -/
def getAux : Nat → Nat → List Frame → String → Ghost →
    Except GErr Val × List Frame × Ghost
  | 0, _, frames, _, g => (Except.error GErr.fuelOut, frames, g)
  | _ + 1, _, [], _, g => (Except.error GErr.unknownBinding, [], g)
  | fuel + 1, d, f :: rest, name, g =>
    match alook f.memo name with
    | some entry =>
      if entry.promisify then
        (Except.ok (Val.promise g.nextId), f :: rest,
          { g with
            nextId := g.nextId + 1,
            promises := g.promises ++ [(g.nextId, ⟨PStatus.fulfilled entry.value, []⟩)] })
      else
        (Except.ok entry.value, f :: rest, g)
    | none =>
      match alook f.factories name with
      | none =>
        if hasChain rest name then
          let r := getAux fuel (d + 1) rest name g
          (r.1, f :: r.2.1, r.2.2)
        else
          (Except.error GErr.unknownBinding, f :: rest, g)
      | some fid =>
        let spec := lookupSpec g.facHeap fid
        let g1 := { g with invocations := g.invocations ++ [fid] }
        match spec.kind with
        | FKind.prim os =>
          let v := Val.obj g1.nextId os
          if spec.transient then
            (Except.ok v, f :: rest,
              { g1 with
                nextId := g1.nextId + 1,
                transientCreated := g1.transientCreated ++ [g1.nextId] })
          else
            (Except.ok v,
              { f with memo := aset f.memo name ⟨false, v⟩ } :: rest,
              { g1 with nextId := g1.nextId + 1 })
        | FKind.promise =>
          let v := Val.promise g1.nextId
          if spec.transient then
            (Except.ok v, f :: rest,
              { g1 with
                nextId := g1.nextId + 1,
                promises := g1.promises ++ [(g1.nextId, ⟨PStatus.pending, []⟩)] })
          else
            (Except.ok v,
              { f with memo := aset f.memo name ⟨false, v⟩ } :: rest,
              { g1 with
                nextId := g1.nextId + 1,
                promises := g1.promises ++ [(g1.nextId, ⟨PStatus.pending, [(d, name)]⟩)] })
        | FKind.aliasOf other =>
          let r := getAux fuel d (f :: rest) other g1
          match r.1 with
          | Except.error e => (Except.error e, r.2.1, r.2.2)
          | Except.ok v =>
            if spec.transient then (Except.ok v, r.2.1, r.2.2)
            else
              match r.2.1 with
              | [] => (Except.ok v, [], r.2.2)
              | f2 :: rest2 =>
                let g2 :=
                  match v with
                  | Val.promise pid =>
                    { r.2.2 with promises := addCont r.2.2.promises pid (d, name) }
                  | _ => r.2.2
                (Except.ok v,
                  { f2 with memo := aset f2.memo name ⟨false, v⟩ } :: rest2, g2)

/-- The full mutable state: the store's chain of frames and the rest. -/
structure World where
  frames : List Frame
  ghost : Ghost
deriving DecidableEq, Repr

/-- `store.get(name)` on the store at the head of the world's chain. -/
def getW (fuel : Nat) (name : String) (w : World) : Except GErr Val × World :=
  let r := getAux fuel 0 w.frames name w.ghost
  (r.1, ⟨r.2.1, r.2.2⟩)

/-- How the environment settles a factory's pending promise: fulfil it with
a freshly constructed object of the given capabilities, or reject it with
an error identified verbatim by a number. -/
inductive Outcome where
  | ok (os : ObjSpec)
  | err (e : Nat)
deriving DecidableEq, Repr

/-- Run the fulfilment continuations: each `.then` handler replaces its
memo entry with a `promisify` marker holding the settled value. -/
def applyContOk (frames : List Frame) (v : Val) : List (Nat × String) → List Frame
  | [] => frames
  | (d, n) :: rest =>
    applyContOk (modFrame frames d (fun fr => { fr with memo := aset fr.memo n ⟨true, v⟩ })) v rest

/-- Run the rejection continuations: each `.catch` handler deletes its memo
entry entirely. -/
def applyContErr (frames : List Frame) : List (Nat × String) → List Frame
  | [] => frames
  | (d, n) :: rest =>
    applyContErr (modFrame frames d (fun fr => { fr with memo := aerase fr.memo n })) rest

/-- Settle a pending promise: record its status, run the attached
continuations once, and clear them. Settling an already-settled promise is
a no-op (promises settle once). -/
def settle (w : World) (pid : Nat) (oc : Outcome) : World :=
  match alook w.ghost.promises pid with
  | none => w
  | some rec =>
    match rec.status with
    | PStatus.pending =>
      match oc with
      | Outcome.ok os =>
        let v := Val.obj w.ghost.nextId os
        { frames := applyContOk w.frames v rec.cont,
          ghost :=
            { w.ghost with
              nextId := w.ghost.nextId + 1,
              promises := aset w.ghost.promises pid ⟨PStatus.fulfilled v, []⟩ } }
      | Outcome.err e =>
        { frames := applyContErr w.frames rec.cont,
          ghost :=
            { w.ghost with
              promises := aset w.ghost.promises pid ⟨PStatus.rejected e, []⟩ } }
    | _ => w

/-- Deliver the continuations attached to an already-settled promise (a
`.then` registered on a settled promise fires in a later microtask). -/
def flushSettled (w : World) (pid : Nat) : World :=
  match alook w.ghost.promises pid with
  | none => w
  | some rec =>
    match rec.status with
    | PStatus.pending => w
    | PStatus.fulfilled v =>
      { frames := applyContOk w.frames v rec.cont,
        ghost := { w.ghost with promises := aset w.ghost.promises pid ⟨PStatus.fulfilled v, []⟩ } }
    | PStatus.rejected e =>
      { frames := applyContErr w.frames rec.cont,
        ghost := { w.ghost with promises := aset w.ghost.promises pid ⟨PStatus.rejected e, []⟩ } }

/-- Events recorded by the synchronous disposal pass. -/
inductive DEvent where
  | syncDispose (id : Nat)
deriving DecidableEq, Repr

/-- The error thrown by synchronous disposal on an async-only resource. -/
inductive DErr where
  | syncDisposeOfAsyncResource
deriving DecidableEq, Repr

/-- `Store[Symbol.dispose]` over the memo-table values, in insertion order:
invoke `Symbol.dispose` when present; otherwise, if only
`Symbol.asyncDispose` is present, throw (aborting the loop); values with
neither capability are skipped. Returns the teardowns performed before any
throw, and the error if one was thrown. -/
def disposeSyncFrame : List (String × MemoEntry) → List DEvent × Option DErr
  | [] => ([], none)
  | (_, e) :: rest =>
    let s := valSpec e.value
    if s.hasSyncDispose then
      let r := disposeSyncFrame rest
      (DEvent.syncDispose (valId e.value) :: r.1, r.2)
    else if s.hasAsyncDispose then
      ([], some DErr.syncDisposeOfAsyncResource)
    else
      disposeSyncFrame rest

/-- `Store[Symbol.dispose]`: iterates only this store's own memo table
(`this.#memoizedValues`), never the parent's. -/
def disposeSync : List Frame → List DEvent × Option DErr
  | [] => ([], none)
  | f :: _ => disposeSyncFrame f.memo

/-- `Store[Symbol.asyncDispose]` over the memo-table values, in insertion
order: prefer `Symbol.asyncDispose` (its promise is pushed onto the pending
list), fall back to `Symbol.dispose`, skip values with neither. Returns the
asynchronous teardowns started, the synchronous teardowns invoked, and
whether the final `Promise.all` of the started teardowns rejects. -/
def disposeAsyncFrame : List (String × MemoEntry) → List Nat × List Nat × Bool
  | [] => ([], [], false)
  | (_, e) :: rest =>
    let s := valSpec e.value
    let r := disposeAsyncFrame rest
    if s.hasAsyncDispose then
      (valId e.value :: r.1, r.2.1, s.asyncDisposeFails || r.2.2)
    else if s.hasSyncDispose then
      (r.1, valId e.value :: r.2.1, r.2.2)
    else
      r

/-- `Store[Symbol.asyncDispose]`: iterates only this store's own memo
table, never the parent's. -/
def disposeAsync : List Frame → List Nat × List Nat × Bool
  | [] => ([], [], false)
  | f :: _ => disposeAsyncFrame f.memo

/-- `StoreDefinition`: the frozen factory map accumulated so far and the
`#parentStore` reference (that store's chain of frames; empty when the
definition has no parent). -/
structure StoreDefinition where
  factories : List (String × Nat)
  parentFrames : List Frame
deriving DecidableEq, Repr

/-- The duplicate-binding error of `StoreDefinition.add`. -/
inductive AddErr where
  | duplicateBinding
deriving DecidableEq, Repr

/-- `StoreDefinition.add(name, value)` (later revision): throw when the name
is already in this definition's own factories or anywhere in the parent
chain (`name in this.#factories || this.#parentStore?.has(name)`);
otherwise return a new definition layering the binding over a copy of the
map. The factory heap is passed through untouched: `add` performs no
invocation and no other effect. -/
def add (sd : StoreDefinition) (name : String) (fid : Nat)
    (h : List (Nat × FacSpec)) :
    Except AddErr StoreDefinition × List (Nat × FacSpec) :=
  if (alook sd.factories name).isSome || hasChain sd.parentFrames name then
    (Except.error AddErr.duplicateBinding, h)
  else
    (Except.ok ⟨sd.factories ++ [(name, fid)], sd.parentFrames⟩, h)

/-- The heap effect of `(value as any).transient = true`: set the transient
tag on the factory object itself, preserving its body. -/
def setTransient (h : List (Nat × FacSpec)) (fid : Nat) : List (Nat × FacSpec) :=
  aset h fid ⟨true, (lookupSpec h fid).kind⟩

/-- `StoreDefinition.addTransient(name, value)`: first mutate the factory
object's transient tag, then delegate to `add` (so the tag is written even
when `add` subsequently throws, as in the source). -/
def addTransient (sd : StoreDefinition) (name : String) (fid : Nat)
    (h : List (Nat × FacSpec)) :
    Except AddErr StoreDefinition × List (Nat × FacSpec) :=
  add sd name fid (setTransient h fid)

/-- `StoreDefinition.finalize()`: a new store with the snapshotted factory
map, an empty memo table, and the definition's parent as its parent. -/
def finalize (sd : StoreDefinition) : List Frame :=
  ⟨sd.factories, []⟩ :: sd.parentFrames

/-- `defineStore()`: an empty definition with no parent. -/
def defineStore : StoreDefinition := ⟨[], []⟩

/-- `Store.createChild()`: a fresh empty definition parented to this store. -/
def createChild (frames : List Frame) : StoreDefinition := ⟨[], frames⟩

/-- The member names of the `StoreDefinition` class as written in the
source (`src/mod.ts`, both revisions agree on this surface). -/
def storeDefinitionMembers : List String :=
  ["constructor", "add", "addTransient", "finalize"]

/-- The member names of the `Store` class as written in the source. -/
def storeMembers : List String :=
  ["constructor", "dispose", "asyncDispose", "has", "get", "createChild"]

/-- Environment actions driving a store: a `get` call on the store (with a
recursion-fuel bound for the embedding), the settlement of a pending
factory promise, and microtask delivery of continuations attached to an
already-settled promise. -/
inductive Op where
  | get (fuel : Nat) (name : String)
  | settle (pid : Nat) (oc : Outcome)
  | flush (pid : Nat)
deriving DecidableEq, Repr

/-- One step of the environment. -/
def step (w : World) : Op → World
  | Op.get fuel n => (getW fuel n w).2
  | Op.settle pid oc => settle w pid oc
  | Op.flush pid => flushSettled w pid

/-- Run a trace of environment actions. -/
def run (w : World) : List Op → World
  | [] => w
  | op :: rest => run (step w op) rest

/-- Results and final state of calling `get` on the same name repeatedly. -/
def iterGetResults (fuel : Nat) (name : String) : Nat → World →
    List (Except GErr Val) × World
  | 0, w => ([], w)
  | n + 1, w =>
    let r := getW fuel name w
    let rest := iterGetResults fuel name n r.2
    (r.1 :: rest.1, rest.2)

/-- Final state of calling `get` on the same name repeatedly. -/
def iterGet (fuel : Nat) (name : String) (n : Nat) (w : World) : World :=
  (iterGetResults fuel name n w).2

/-- A store with a single binding and a fresh world around it. -/
def singleW (fid : Nat) (spec : FacSpec) (name : String) : World :=
  { frames := [⟨[(name, fid)], []⟩],
    ghost := ⟨[(fid, spec)], [], 0, [], []⟩ }

/-- Whether a factory body re-enters the container (`store.get(...)`). -/
def isAliasKind : FKind → Bool
  | FKind.aliasOf _ => true
  | _ => false

/-- Heaps whose factories do not re-enter the container. -/
def aliasFree (h : List (Nat × FacSpec)) : Bool :=
  h.all (fun p => !isAliasKind p.2.kind)

/-- The names requested by the `get` calls of a trace. -/
def getsOf (ops : List Op) : List String :=
  ops.filterMap (fun op =>
    match op with
    | Op.get _ n => some n
    | _ => none)

/-- No frame of the chain has a memo entry for the name. -/
def memoFree (frames : List Frame) (n : String) : Bool :=
  frames.all (fun fr => (alook fr.memo n).isNone)

/-- No promise carries a pending continuation targeting the name. -/
def contFree (ps : List (Nat × PromiseRec)) (n : String) : Bool :=
  ps.all (fun p => p.2.cont.all (fun c => c.2 != n))

/-- A memoized value that can only be torn down asynchronously (the case
that makes synchronous disposal throw). -/
def asyncOnlyVal (v : Val) : Bool :=
  (valSpec v).hasAsyncDispose && !(valSpec v).hasSyncDispose

/-- The world after the first `get` of a singleton asynchronous binding:
the factory was invoked once, its pending promise (id 0) was memoized
without a marker and carries the success/failure continuation. -/
def asyncW1 (fid : Nat) (name : String) : World :=
  ⟨[⟨[(name, fid)], [(name, ⟨false, Val.promise 0⟩)]⟩],
    ⟨[(fid, ⟨false, FKind.promise⟩)],
      [(0, ⟨PStatus.pending, [(0, name)]⟩)], 1, [fid], []⟩⟩

/-- The world after that computation settles successfully: the memo entry
was replaced by a resolved marker holding the constructed object. -/
def asyncW2 (fid : Nat) (name : String) (os : ObjSpec) : World :=
  ⟨[⟨[(name, fid)], [(name, ⟨true, Val.obj 1 os⟩)]⟩],
    ⟨[(fid, ⟨false, FKind.promise⟩)],
      [(0, ⟨PStatus.fulfilled (Val.obj 1 os), []⟩)], 2, [fid], []⟩⟩

/-- The world after that computation rejects: the memo entry was deleted
entirely and the promise records the error verbatim. -/
def asyncWErr (fid : Nat) (name : String) (e : Nat) : World :=
  ⟨[⟨[(name, fid)], []⟩],
    ⟨[(fid, ⟨false, FKind.promise⟩)],
      [(0, ⟨PStatus.rejected e, []⟩)], 1, [fid], []⟩⟩

/-! ## Basic lemmas about the association-list operations -/

@[simp]
theorem alook_nil {κ α : Type} [DecidableEq κ] (k : κ) :
    alook ([] : List (κ × α)) k = none := rfl

@[simp]
theorem alook_cons {κ α : Type} [DecidableEq κ] (k k' : κ) (v : α)
    (rest : List (κ × α)) :
    alook ((k, v) :: rest) k' = if k = k' then some v else alook rest k' := rfl

theorem alook_aset_self {κ α : Type} [DecidableEq κ] (l : List (κ × α))
    (k : κ) (v : α) : alook (aset l k v) k = some v := by
  induction l with
  | nil => simp [aset]
  | cons p rest ih =>
    obtain ⟨k0, v0⟩ := p
    by_cases h : k0 = k
    · simp [aset, h]
    · simp [aset, h, ih]

theorem alook_aset_ne {κ α : Type} [DecidableEq κ] (l : List (κ × α))
    (k k' : κ) (v : α) (hne : k ≠ k') :
    alook (aset l k v) k' = alook l k' := by
  induction l with
  | nil => simp [aset, hne]
  | cons p rest ih =>
    obtain ⟨k0, v0⟩ := p
    by_cases h : k0 = k
    · subst h
      simp [aset, hne]
    · simp [aset, h, ih]

theorem alook_aerase_ne {κ α : Type} [DecidableEq κ] (l : List (κ × α))
    (k k' : κ) (hne : k ≠ k') :
    alook (aerase l k) k' = alook l k' := by
  induction l with
  | nil => simp [aerase]
  | cons p rest ih =>
    obtain ⟨k0, v0⟩ := p
    by_cases h : k0 = k
    · subst h
      simp [aerase, hne]
    · simp [aerase, h, ih]

theorem hasChain_iff (frames : List Frame) (name : String) :
    hasChain frames name = true ↔
      ∃ fr ∈ frames, (alook fr.factories name).isSome = true := by
  induction frames with
  | nil => simp [hasChain]
  | cons f rest ih => simp [hasChain, ih]

/-! ## Shape lemmas: one per branch of the resolution routine -/

theorem getAux_memo_plain {f : Frame} {name : String} {entry : MemoEntry}
    {g : Ghost} (fuel d : Nat) (rest : List Frame)
    (hmemo : alook f.memo name = some entry) (hp : entry.promisify = false) :
    getAux (fuel + 1) d (f :: rest) name g =
      (Except.ok entry.value, f :: rest, g) := by
  simp [getAux, hmemo, hp]

theorem getAux_memo_marker {f : Frame} {name : String} {entry : MemoEntry}
    {g : Ghost} (fuel d : Nat) (rest : List Frame)
    (hmemo : alook f.memo name = some entry) (hp : entry.promisify = true) :
    getAux (fuel + 1) d (f :: rest) name g =
      (Except.ok (Val.promise g.nextId), f :: rest,
        { g with
          nextId := g.nextId + 1,
          promises := g.promises ++
            [(g.nextId, ⟨PStatus.fulfilled entry.value, []⟩)] }) := by
  simp [getAux, hmemo, hp]

theorem getAux_parent {f : Frame} {name : String} {g : Ghost}
    (fuel d : Nat) (rest : List Frame)
    (hmemo : alook f.memo name = none) (hfac : alook f.factories name = none)
    (hhc : hasChain rest name = true) :
    getAux (fuel + 1) d (f :: rest) name g =
      ((getAux fuel (d + 1) rest name g).1,
        f :: (getAux fuel (d + 1) rest name g).2.1,
        (getAux fuel (d + 1) rest name g).2.2) := by
  simp [getAux, hmemo, hfac, hhc]

theorem getAux_unknown {f : Frame} {name : String} {g : Ghost}
    (fuel d : Nat) (rest : List Frame)
    (hmemo : alook f.memo name = none) (hfac : alook f.factories name = none)
    (hhc : hasChain rest name = false) :
    getAux (fuel + 1) d (f :: rest) name g =
      (Except.error GErr.unknownBinding, f :: rest, g) := by
  simp [getAux, hmemo, hfac, hhc]

theorem getAux_prim_transient {f : Frame} {name : String} {g : Ghost}
    {fid : Nat} {os : ObjSpec} (fuel d : Nat) (rest : List Frame)
    (hmemo : alook f.memo name = none)
    (hfac : alook f.factories name = some fid)
    (hspec : lookupSpec g.facHeap fid = ⟨true, FKind.prim os⟩) :
    getAux (fuel + 1) d (f :: rest) name g =
      (Except.ok (Val.obj g.nextId os), f :: rest,
        { g with
          nextId := g.nextId + 1,
          invocations := g.invocations ++ [fid],
          transientCreated := g.transientCreated ++ [g.nextId] }) := by
  simp [getAux, hmemo, hfac, hspec]

theorem getAux_prim_singleton {f : Frame} {name : String} {g : Ghost}
    {fid : Nat} {os : ObjSpec} (fuel d : Nat) (rest : List Frame)
    (hmemo : alook f.memo name = none)
    (hfac : alook f.factories name = some fid)
    (hspec : lookupSpec g.facHeap fid = ⟨false, FKind.prim os⟩) :
    getAux (fuel + 1) d (f :: rest) name g =
      (Except.ok (Val.obj g.nextId os),
        { f with memo := aset f.memo name ⟨false, Val.obj g.nextId os⟩ } :: rest,
        { g with
          nextId := g.nextId + 1,
          invocations := g.invocations ++ [fid] }) := by
  simp [getAux, hmemo, hfac, hspec]

theorem getAux_promise_transient {f : Frame} {name : String} {g : Ghost}
    {fid : Nat} (fuel d : Nat) (rest : List Frame)
    (hmemo : alook f.memo name = none)
    (hfac : alook f.factories name = some fid)
    (hspec : lookupSpec g.facHeap fid = ⟨true, FKind.promise⟩) :
    getAux (fuel + 1) d (f :: rest) name g =
      (Except.ok (Val.promise g.nextId), f :: rest,
        { g with
          nextId := g.nextId + 1,
          invocations := g.invocations ++ [fid],
          promises := g.promises ++ [(g.nextId, ⟨PStatus.pending, []⟩)] }) := by
  simp [getAux, hmemo, hfac, hspec]

theorem getAux_promise_singleton {f : Frame} {name : String} {g : Ghost}
    {fid : Nat} (fuel d : Nat) (rest : List Frame)
    (hmemo : alook f.memo name = none)
    (hfac : alook f.factories name = some fid)
    (hspec : lookupSpec g.facHeap fid = ⟨false, FKind.promise⟩) :
    getAux (fuel + 1) d (f :: rest) name g =
      (Except.ok (Val.promise g.nextId),
        { f with
          memo := aset f.memo name ⟨false, Val.promise g.nextId⟩ } :: rest,
        { g with
          nextId := g.nextId + 1,
          invocations := g.invocations ++ [fid],
          promises := g.promises ++
            [(g.nextId, ⟨PStatus.pending, [(d, name)]⟩)] }) := by
  simp [getAux, hmemo, hfac, hspec]

/-! ## Trace invariants: names never requested are never memoized -/

theorem alook_mem {κ α : Type} [DecidableEq κ] {l : List (κ × α)} {k : κ}
    {v : α} (h : alook l k = some v) : (k, v) ∈ l := by
  induction l with
  | nil => simp [alook] at h
  | cons p rest ih =>
    obtain ⟨k0, v0⟩ := p
    by_cases hk : k0 = k
    · subst hk
      simp [alook] at h
      simp [h]
    · simp [alook, hk] at h
      exact List.mem_cons_of_mem _ (ih h)

theorem lookupSpec_aliasFree {h : List (Nat × FacSpec)} {fid : Nat}
    (hal : aliasFree h = true) : isAliasKind (lookupSpec h fid).kind = false := by
  unfold lookupSpec
  cases hx : alook h fid with
  | none => simp [defaultFacSpec, isAliasKind]
  | some s =>
    have hmem := alook_mem hx
    have := List.all_eq_true.mp hal _ hmem
    simpa using this

theorem memoFree_cons {f : Frame} {rest : List Frame} {n : String} :
    memoFree (f :: rest) n = ((alook f.memo n).isNone && memoFree rest n) := by
  simp [memoFree]

theorem contFree_append {ps qs : List (Nat × PromiseRec)} {n : String} :
    contFree (ps ++ qs) n = (contFree ps n && contFree qs n) := by
  simp [contFree]

theorem contFree_aset {ps : List (Nat × PromiseRec)} {pid : Nat}
    {rec : PromiseRec} {n : String} (hps : contFree ps n = true)
    (hrec : rec.cont.all (fun c => c.2 != n) = true) :
    contFree (aset ps pid rec) n = true := by
  induction ps with
  | nil => simpa [contFree, aset] using hrec
  | cons p rest ih =>
    rw [contFree, List.all_cons] at hps
    obtain ⟨k0, v0⟩ := p
    have hv0 : (v0.cont.all fun c => c.2 != n) = true := Bool.and_elim_left hps
    have hrest : contFree rest n = true := Bool.and_elim_right hps
    by_cases hk : k0 = pid
    · subst hk
      rw [show aset ((k0, v0) :: rest) k0 rec = (k0, rec) :: rest from by
        simp [aset]]
      rw [contFree, List.all_cons]
      exact Bool.and_eq_true_iff.mpr ⟨hrec, hrest⟩
    · rw [show aset ((k0, v0) :: rest) pid rec =
          (k0, v0) :: aset rest pid rec from by simp [aset, hk]]
      rw [contFree, List.all_cons]
      exact Bool.and_eq_true_iff.mpr ⟨hv0, ih hrest⟩

theorem contFree_names {ps : List (Nat × PromiseRec)} {pid : Nat}
    {rec : PromiseRec} {n : String} (hps : contFree ps n = true)
    (hx : alook ps pid = some rec) : ∀ c ∈ rec.cont, c.2 ≠ n := by
  intro c hcmem
  have hmem := alook_mem hx
  have h1 := List.all_eq_true.mp hps _ hmem
  have h2 := List.all_eq_true.mp h1 _ hcmem
  simpa using h2

theorem memoFree_modFrame {frames : List Frame} {d : Nat} {φ : Frame → Frame}
    {n : String} (hm : memoFree frames n = true)
    (hφ : ∀ fr : Frame, (alook fr.memo n).isNone = true →
      (alook (φ fr).memo n).isNone = true) :
    memoFree (modFrame frames d φ) n = true := by
  induction frames generalizing d with
  | nil => simpa [modFrame] using hm
  | cons f rest ih =>
    rw [memoFree_cons] at hm
    cases d with
    | zero =>
      rw [modFrame, memoFree_cons]
      exact Bool.and_eq_true_iff.mpr
        ⟨hφ f (Bool.and_elim_left hm), Bool.and_elim_right hm⟩
    | succ d =>
      rw [modFrame, memoFree_cons]
      exact Bool.and_eq_true_iff.mpr
        ⟨Bool.and_elim_left hm, ih (Bool.and_elim_right hm)⟩

theorem applyContOk_memoFree {cs : List (Nat × String)} {frames : List Frame}
    {v : Val} {n : String} (hm : memoFree frames n = true)
    (hcs : ∀ c ∈ cs, c.2 ≠ n) :
    memoFree (applyContOk frames v cs) n = true := by
  induction cs generalizing frames with
  | nil => simpa [applyContOk] using hm
  | cons c rest ih =>
    obtain ⟨d, m⟩ := c
    rw [applyContOk]
    refine ih ?_ (fun c hc => hcs c (List.mem_cons_of_mem _ hc))
    refine memoFree_modFrame hm (fun fr hfr => ?_)
    have hmn : m ≠ n := hcs (d, m) (List.mem_cons_self _ _)
    simpa [alook_aset_ne fr.memo m n _ hmn] using hfr

theorem applyContErr_memoFree {cs : List (Nat × String)} {frames : List Frame}
    {n : String} (hm : memoFree frames n = true)
    (hcs : ∀ c ∈ cs, c.2 ≠ n) :
    memoFree (applyContErr frames cs) n = true := by
  induction cs generalizing frames with
  | nil => simpa [applyContErr] using hm
  | cons c rest ih =>
    obtain ⟨d, m⟩ := c
    rw [applyContErr]
    refine ih ?_ (fun c hc => hcs c (List.mem_cons_of_mem _ hc))
    refine memoFree_modFrame hm (fun fr hfr => ?_)
    have hmn : m ≠ n := hcs (d, m) (List.mem_cons_self _ _)
    simpa [alook_aerase_ne fr.memo m n hmn] using hfr

/-- Resolution for a name other than `n`, over an alias-free heap, never
creates a memo entry for `n`, never attaches a continuation targeting `n`,
and never changes the factory heap. -/
theorem getAux_clean (n : String) :
    ∀ (fuel d : Nat) (frames : List Frame) (name : String) (g : Ghost),
      aliasFree g.facHeap = true →
      memoFree frames n = true →
      contFree g.promises n = true →
      name ≠ n →
      memoFree (getAux fuel d frames name g).2.1 n = true ∧
        contFree (getAux fuel d frames name g).2.2.promises n = true ∧
        (getAux fuel d frames name g).2.2.facHeap = g.facHeap := by
  intro fuel
  induction fuel with
  | zero =>
    intro d frames name g _ hm hc _
    exact ⟨by simpa [getAux] using hm, by simpa [getAux] using hc, rfl⟩
  | succ fuel ih =>
    intro d frames name g hal hm hc hne
    match frames with
    | [] => exact ⟨by simpa [getAux] using hm, by simpa [getAux] using hc, rfl⟩
    | f :: rest =>
      rw [memoFree_cons] at hm
      have hmf := Bool.and_elim_left hm
      have hmr := Bool.and_elim_right hm
      have hfcons : memoFree (f :: rest) n = true := by
        rw [memoFree_cons]
        exact Bool.and_eq_true_iff.mpr ⟨hmf, hmr⟩
      cases hmemo : alook f.memo name with
      | some entry =>
        cases hp : entry.promisify with
        | false =>
          rw [getAux_memo_plain fuel d rest hmemo hp]
          exact ⟨hfcons, hc, rfl⟩
        | true =>
          rw [getAux_memo_marker fuel d rest hmemo hp]
          refine ⟨hfcons, ?_, rfl⟩
          rw [contFree_append]
          exact Bool.and_eq_true_iff.mpr ⟨hc, by simp [contFree]⟩
      | none =>
        cases hfac : alook f.factories name with
        | none =>
          cases hhc : hasChain rest name with
          | false =>
            rw [getAux_unknown fuel d rest hmemo hfac hhc]
            exact ⟨hfcons, hc, rfl⟩
          | true =>
            obtain ⟨ih1, ih2, ih3⟩ := ih (d + 1) rest name g hal hmr hc hne
            rw [getAux_parent fuel d rest hmemo hfac hhc]
            refine ⟨?_, ih2, ih3⟩
            rw [memoFree_cons]
            exact Bool.and_eq_true_iff.mpr ⟨hmf, ih1⟩
        | some fid =>
          have hnotal := @lookupSpec_aliasFree g.facHeap fid hal
          rcases hspec : lookupSpec g.facHeap fid with ⟨t, k⟩
          cases k with
          | aliasOf other =>
            rw [hspec] at hnotal
            simp [isAliasKind] at hnotal
          | prim os =>
            have hset : (alook (aset f.memo name
                ⟨false, Val.obj g.nextId os⟩) n).isNone = true := by
              rw [alook_aset_ne f.memo name n _ hne]
              exact hmf
            cases t with
            | true =>
              rw [getAux_prim_transient fuel d rest hmemo hfac (by rw [hspec])]
              exact ⟨hfcons, hc, rfl⟩
            | false =>
              rw [getAux_prim_singleton fuel d rest hmemo hfac (by rw [hspec])]
              refine ⟨?_, hc, rfl⟩
              rw [memoFree_cons]
              exact Bool.and_eq_true_iff.mpr ⟨hset, hmr⟩
          | promise =>
            have hset : (alook (aset f.memo name
                ⟨false, Val.promise g.nextId⟩) n).isNone = true := by
              rw [alook_aset_ne f.memo name n _ hne]
              exact hmf
            cases t with
            | true =>
              rw [getAux_promise_transient fuel d rest hmemo hfac (by rw [hspec])]
              refine ⟨hfcons, ?_, rfl⟩
              rw [contFree_append]
              exact Bool.and_eq_true_iff.mpr ⟨hc, by simp [contFree]⟩
            | false =>
              rw [getAux_promise_singleton fuel d rest hmemo hfac (by rw [hspec])]
              refine ⟨?_, ?_, rfl⟩
              · rw [memoFree_cons]
                exact Bool.and_eq_true_iff.mpr ⟨hset, hmr⟩
              · rw [contFree_append]
                refine Bool.and_eq_true_iff.mpr ⟨hc, ?_⟩
                simp [contFree, bne_iff_ne]
                exact hne

/-! ## Claim theorems -/

/-- C9: the spec requires a `StoreDefinition.override(name, factory)`
operation (it is exercised by the README's testing example), but the
`StoreDefinition` class of the source declares only a constructor, `add`,
`addTransient` and `finalize`: no `override` member exists, so the
documented call fails. -/
theorem storeDefinition_override_missing :
    ¬ ("override" ∈ storeDefinitionMembers) := by decide

/-- C7: asynchronous disposal iterates exactly this store's own memo table:
for each memoized value it prefers the asynchronous teardown capability
(all such teardowns are started, collected, and awaited together by the
final aggregate), falls back to the synchronous capability, and skips
values with neither; the list of started teardowns always covers every
async-capable memoized value, independently of which of them fail, so a
failure of the aggregate is surfaced only after every registered teardown
was attempted; and the parent chain's frames are never consulted. -/
theorem asyncDispose_spec :
    (∀ m : List (String × MemoEntry),
      disposeAsyncFrame m =
        ((m.filter (fun p => (valSpec p.2.value).hasAsyncDispose)).map
            (fun p => valId p.2.value),
         (m.filter (fun p =>
            !(valSpec p.2.value).hasAsyncDispose &&
              (valSpec p.2.value).hasSyncDispose)).map (fun p => valId p.2.value),
         m.any (fun p =>
            (valSpec p.2.value).hasAsyncDispose &&
              (valSpec p.2.value).asyncDisposeFails)))
    ∧ (∀ (f : Frame) (rest : List Frame),
        disposeAsync (f :: rest) = disposeAsyncFrame f.memo) := by
  constructor
  · intro m
    induction m with
    | nil => simp [disposeAsyncFrame]
    | cons p rest ih =>
      by_cases ha : (valSpec p.2.value).hasAsyncDispose
      · simp [disposeAsyncFrame, ha, ih]
      · by_cases hs : (valSpec p.2.value).hasSyncDispose
        · simp [disposeAsyncFrame, ha, hs, ih]
        · simp [disposeAsyncFrame, ha, hs, ih]
  · intro f rest
    rfl

/-- C4: `add` and `addTransient` fail synchronously with the duplicate-
binding error exactly when the name is already bound in this definition's
own factories or in some frame of the parent chain; on success they return
a new definition extending the bindings with the new one; `add` leaves the
factory heap untouched and `addTransient` changes no factory's body, so no
factory is invoked. -/
theorem add_duplicate_policy (sd : StoreDefinition) (name : String)
    (fid : Nat) (h : List (Nat × FacSpec)) :
    ((add sd name fid h).1 = Except.error AddErr.duplicateBinding ↔
      ((alook sd.factories name).isSome = true ∨
        ∃ fr ∈ sd.parentFrames, (alook fr.factories name).isSome = true))
    ∧ ((addTransient sd name fid h).1 = Except.error AddErr.duplicateBinding ↔
      ((alook sd.factories name).isSome = true ∨
        ∃ fr ∈ sd.parentFrames, (alook fr.factories name).isSome = true))
    ∧ (alook sd.factories name = none → hasChain sd.parentFrames name = false →
        (add sd name fid h).1 =
          Except.ok ⟨sd.factories ++ [(name, fid)], sd.parentFrames⟩)
    ∧ (alook sd.factories name = none → hasChain sd.parentFrames name = false →
        (addTransient sd name fid h).1 =
          Except.ok ⟨sd.factories ++ [(name, fid)], sd.parentFrames⟩)
    ∧ (add sd name fid h).2 = h
    ∧ (∀ g : Nat,
        (lookupSpec (addTransient sd name fid h).2 g).kind =
          (lookupSpec h g).kind) := by
  have hkind : ∀ g : Nat,
      (lookupSpec (setTransient h fid) g).kind = (lookupSpec h g).kind := by
    intro g
    by_cases hg : fid = g
    · subst hg
      simp [setTransient, lookupSpec, alook_aset_self]
    · simp [setTransient, lookupSpec, alook_aset_ne h fid g _ hg]
  have herr : ∀ h' : List (Nat × FacSpec),
      ((add sd name fid h').1 = Except.error AddErr.duplicateBinding ↔
        ((alook sd.factories name).isSome = true ∨
          ∃ fr ∈ sd.parentFrames, (alook fr.factories name).isSome = true)) := by
    intro h'
    rw [← hasChain_iff]
    by_cases hc : ((alook sd.factories name).isSome || hasChain sd.parentFrames name) = true
    · simp only [add, hc, if_true]
      simpa using Bool.or_eq_true _ _ |>.mp hc
    · simp only [add, hc, if_false]
      constructor
      · intro hcontra
        exact absurd hcontra (by simp)
      · intro hor
        exact absurd (Bool.or_eq_true _ _ |>.mpr hor) hc
  have hok : ∀ h' : List (Nat × FacSpec),
      alook sd.factories name = none → hasChain sd.parentFrames name = false →
      (add sd name fid h').1 =
        Except.ok ⟨sd.factories ++ [(name, fid)], sd.parentFrames⟩ := by
    intro h' h1 h2
    simp [add, h1, h2]
  have hpass : ∀ h' : List (Nat × FacSpec), (add sd name fid h').2 = h' := by
    intro h'
    by_cases hc :
        ((alook sd.factories name).isSome || hasChain sd.parentFrames name) = true
    · simp [add, hc]
    · simp [add, hc]
  refine ⟨herr h, herr (setTransient h fid), hok h, hok (setTransient h fid),
    hpass h, ?_⟩
  intro g
  show (lookupSpec (add sd name fid (setTransient h fid)).2 g).kind = _
  rw [hpass (setTransient h fid)]
  exact hkind g

/-- Closed instantiation of `add_duplicate_policy`: a name bound in the
parent chain is rejected by the child's `add`, a fresh name is accepted,
and the heap is untouched. -/
theorem add_duplicate_policy_witness :
    (add ⟨[], [⟨[("A", 0)], []⟩]⟩ "A" 1 [(0, defaultFacSpec)]).1 =
        Except.error AddErr.duplicateBinding
    ∧ (add ⟨[], [⟨[("A", 0)], []⟩]⟩ "B" 1 [(0, defaultFacSpec)]).1 =
        Except.ok ⟨[("B", 1)], [⟨[("A", 0)], []⟩]⟩
    ∧ (add ⟨[], [⟨[("A", 0)], []⟩]⟩ "A" 1 [(0, defaultFacSpec)]).2 =
        [(0, defaultFacSpec)] := by
  have h1 := (add_duplicate_policy ⟨[], [⟨[("A", 0)], []⟩]⟩ "A" 1
    [(0, defaultFacSpec)]).1
  have h2 := (add_duplicate_policy ⟨[], [⟨[("A", 0)], []⟩]⟩ "B" 1
    [(0, defaultFacSpec)]).2.2.1
  have h3 := (add_duplicate_policy ⟨[], [⟨[("A", 0)], []⟩]⟩ "A" 1
    [(0, defaultFacSpec)]).2.2.2.2.1
  refine ⟨?_, ?_, h3⟩
  · exact h1.mpr (Or.inr ⟨⟨[("A", 0)], []⟩, by simp, by simp⟩)
  · exact h2 (by decide) (by decide)

theorem settle_clean {w : World} (pid : Nat) (oc : Outcome) {n : String}
    (hm : memoFree w.frames n = true)
    (hc : contFree w.ghost.promises n = true) :
    memoFree (settle w pid oc).frames n = true ∧
      contFree (settle w pid oc).ghost.promises n = true ∧
      (settle w pid oc).ghost.facHeap = w.ghost.facHeap := by
  cases hx : alook w.ghost.promises pid with
  | none =>
    simp only [settle, hx]
    exact ⟨hm, hc, trivial⟩
  | some rec =>
    have hnames := contFree_names hc hx
    cases hst : rec.status with
    | pending =>
      cases oc with
      | ok os =>
        simp only [settle, hx, hst]
        exact ⟨applyContOk_memoFree hm hnames,
          contFree_aset hc (by simp), trivial⟩
      | err e =>
        simp only [settle, hx, hst]
        exact ⟨applyContErr_memoFree hm hnames,
          contFree_aset hc (by simp), trivial⟩
    | fulfilled v =>
      simp only [settle, hx, hst]
      exact ⟨hm, hc, trivial⟩
    | rejected e =>
      simp only [settle, hx, hst]
      exact ⟨hm, hc, trivial⟩

theorem flushSettled_clean {w : World} (pid : Nat) {n : String}
    (hm : memoFree w.frames n = true)
    (hc : contFree w.ghost.promises n = true) :
    memoFree (flushSettled w pid).frames n = true ∧
      contFree (flushSettled w pid).ghost.promises n = true ∧
      (flushSettled w pid).ghost.facHeap = w.ghost.facHeap := by
  cases hx : alook w.ghost.promises pid with
  | none =>
    simp only [flushSettled, hx]
    exact ⟨hm, hc, trivial⟩
  | some rec =>
    have hnames := contFree_names hc hx
    cases hst : rec.status with
    | pending =>
      simp only [flushSettled, hx, hst]
      exact ⟨hm, hc, trivial⟩
    | fulfilled v =>
      simp only [flushSettled, hx, hst]
      exact ⟨applyContOk_memoFree hm hnames,
        contFree_aset hc (by simp), trivial⟩
    | rejected e =>
      simp only [flushSettled, hx, hst]
      exact ⟨applyContErr_memoFree hm hnames,
        contFree_aset hc (by simp), trivial⟩

theorem step_clean {w : World} {op : Op} {n : String}
    (hal : aliasFree w.ghost.facHeap = true)
    (hm : memoFree w.frames n = true)
    (hc : contFree w.ghost.promises n = true)
    (hop : ∀ fuel name, op = Op.get fuel name → name ≠ n) :
    aliasFree (step w op).ghost.facHeap = true ∧
      memoFree (step w op).frames n = true ∧
      contFree (step w op).ghost.promises n = true := by
  cases op with
  | get fuel name =>
    have hne := hop fuel name rfl
    obtain ⟨h1, h2, h3⟩ :=
      getAux_clean n fuel 0 w.frames name w.ghost hal hm hc hne
    refine ⟨?_, h1, h2⟩
    show aliasFree (getAux fuel 0 w.frames name w.ghost).2.2.facHeap = true
    rw [h3]
    exact hal
  | settle pid oc =>
    obtain ⟨h1, h2, h3⟩ := settle_clean pid oc hm hc
    refine ⟨?_, h1, h2⟩
    show aliasFree (settle w pid oc).ghost.facHeap = true
    rw [h3]
    exact hal
  | flush pid =>
    obtain ⟨h1, h2, h3⟩ := flushSettled_clean pid hm hc
    refine ⟨?_, h1, h2⟩
    show aliasFree (flushSettled w pid).ghost.facHeap = true
    rw [h3]
    exact hal

theorem run_clean {n : String} :
    ∀ (ops : List Op) (w : World),
      aliasFree w.ghost.facHeap = true →
      memoFree w.frames n = true →
      contFree w.ghost.promises n = true →
      (∀ fuel name, Op.get fuel name ∈ ops → name ≠ n) →
      memoFree (run w ops).frames n = true := by
  intro ops
  induction ops with
  | nil =>
    intro w _ hm _ _
    simpa [run] using hm
  | cons op rest ih =>
    intro w hal hm hc hops
    rw [run]
    obtain ⟨h1, h2, h3⟩ := step_clean hal hm hc
      (fun fuel name heq => hops fuel name (heq ▸ List.mem_cons_self _ _))
    exact ih (step w op) h1 h2 h3
      (fun fuel name hmem => hops fuel name (List.mem_cons_of_mem _ hmem))

/-- C6: synchronous disposal iterates exactly the memo table of this store
itself: the teardowns it performs are the synchronously-disposable values
of the memo prefix preceding the first async-only value (each such value's
synchronous teardown is invoked, in insertion order), it throws
`SyncDisposeOfAsyncResource` exactly when some memoized value is
async-only (and then performs no teardown past that value), the parent
chain's frames are never consulted, and a name for which no `get` was ever
issued never acquires a memo entry in any frame — so its value is never
torn down. -/
theorem syncDispose_spec :
    (∀ m : List (String × MemoEntry),
      disposeSyncFrame m =
        (((m.takeWhile (fun p => !asyncOnlyVal p.2.value)).filter
            (fun p => (valSpec p.2.value).hasSyncDispose)).map
            (fun p => DEvent.syncDispose (valId p.2.value)),
          if m.all (fun p => !asyncOnlyVal p.2.value) then none
          else some DErr.syncDisposeOfAsyncResource))
    ∧ (∀ (f : Frame) (rest : List Frame),
        disposeSync (f :: rest) = disposeSyncFrame f.memo)
    ∧ (∀ (w : World) (ops : List Op) (n : String),
        aliasFree w.ghost.facHeap = true →
        memoFree w.frames n = true →
        contFree w.ghost.promises n = true →
        (∀ fuel name, Op.get fuel name ∈ ops → name ≠ n) →
        memoFree (run w ops).frames n = true) := by
  refine ⟨?_, fun f rest => rfl, fun w ops n => run_clean ops w⟩
  intro m
  induction m with
  | nil => simp [disposeSyncFrame]
  | cons p rest ih =>
    by_cases hs : (valSpec p.2.value).hasSyncDispose
    · have hao : asyncOnlyVal p.2.value = false := by
        simp [asyncOnlyVal, hs]
      simp only [disposeSyncFrame, hs, if_true, ih, List.takeWhile_cons,
        List.all_cons, hao, Bool.not_false, Bool.true_and, List.filter_cons,
        List.map_cons]
    · by_cases ha : (valSpec p.2.value).hasAsyncDispose
      · have hao : asyncOnlyVal p.2.value = true := by
          simp [asyncOnlyVal, hs, ha]
        simp [disposeSyncFrame, hs, ha, hao]
      · have hao : asyncOnlyVal p.2.value = false := by
          simp [asyncOnlyVal, ha]
        simp only [disposeSyncFrame, hs, ha, if_false, ih,
          List.takeWhile_cons, List.all_cons, hao, Bool.not_false,
          Bool.true_and, List.filter_cons]
        simp [hs, ha]

/-- Closed instantiation of `syncDispose_spec`: a store whose memo holds a
sync-disposable value, then an async-only value, then another
sync-disposable value disposes only the first and throws; the parent frame
is not consulted; and a trace that never gets the name "B" leaves "B"
unmemoized. -/
theorem syncDispose_spec_witness :
    disposeSync
        [⟨[("A", 0)],
          [("A", ⟨false, Val.obj 0 ⟨true, false, false⟩⟩),
           ("B", ⟨false, Val.obj 1 ⟨false, true, false⟩⟩),
           ("C", ⟨false, Val.obj 2 ⟨true, false, false⟩⟩)]⟩,
         ⟨[("P", 9)], [("P", ⟨false, Val.obj 7 ⟨true, false, false⟩⟩)]⟩] =
      ([DEvent.syncDispose 0], some DErr.syncDisposeOfAsyncResource)
    ∧ memoFree
        (run (singleW 0 ⟨false, FKind.prim ⟨true, false, false⟩⟩ "A")
          [Op.get 1 "A", Op.get 1 "A"]).frames "B" = true := by
  have h := syncDispose_spec
  constructor
  · rw [h.2.1]
    rw [h.1]
    decide
  · exact h.2.2 (singleW 0 ⟨false, FKind.prim ⟨true, false, false⟩⟩ "A")
      [Op.get 1 "A", Op.get 1 "A"] "B" (by decide) (by decide) (by decide)
      (by intro fuel name hmem; fin_cases hmem <;> decide)

/-- C2: resolution precedence is local-first. When the name is locally
bound (a memo entry or a local factory whose body does not itself re-enter
the container), `get` resolves entirely within the local frame: the parent
chain is returned untouched and the result, the local frame's new state and
the ghost state coincide with a resolution run on the local frame alone;
the parent chain is consulted (by delegation to the parent's own `get`)
only when the name has neither a memo entry nor a local factory. -/
theorem get_local_precedence (fuel d : Nat) (f : Frame) (rest : List Frame)
    (name : String) (g : Ghost)
    (hnoal : isAliasKind
      (lookupSpec g.facHeap ((alook f.factories name).getD 0)).kind = false) :
    (((alook f.memo name).isSome = true ∨
        (alook f.factories name).isSome = true) →
      (getAux (fuel + 1) d (f :: rest) name g).2.1.tail = rest ∧
      (getAux (fuel + 1) d (f :: rest) name g).1 =
        (getAux (fuel + 1) d [f] name g).1 ∧
      (getAux (fuel + 1) d (f :: rest) name g).2.1.headD ⟨[], []⟩ =
        (getAux (fuel + 1) d [f] name g).2.1.headD ⟨[], []⟩ ∧
      (getAux (fuel + 1) d (f :: rest) name g).2.2 =
        (getAux (fuel + 1) d [f] name g).2.2)
    ∧ (alook f.memo name = none → alook f.factories name = none →
        hasChain rest name = true →
        getAux (fuel + 1) d (f :: rest) name g =
          ((getAux fuel (d + 1) rest name g).1,
            f :: (getAux fuel (d + 1) rest name g).2.1,
            (getAux fuel (d + 1) rest name g).2.2)) := by
  constructor
  · intro hloc
    cases hmemo : alook f.memo name with
    | some entry =>
      cases hp : entry.promisify with
      | false =>
        rw [getAux_memo_plain fuel d rest hmemo hp,
          getAux_memo_plain fuel d [] hmemo hp]
        exact ⟨rfl, rfl, rfl, rfl⟩
      | true =>
        rw [getAux_memo_marker fuel d rest hmemo hp,
          getAux_memo_marker fuel d [] hmemo hp]
        exact ⟨rfl, rfl, rfl, rfl⟩
    | none =>
      cases hfac : alook f.factories name with
      | none =>
        rw [hmemo] at hloc
        rw [hfac] at hloc
        simp at hloc
      | some fid =>
        rw [hfac] at hnoal
        simp only [Option.getD_some] at hnoal
        rcases hspec : lookupSpec g.facHeap fid with ⟨t, k⟩
        cases k with
        | aliasOf other =>
          rw [hspec] at hnoal
          simp [isAliasKind] at hnoal
        | prim os =>
          cases t with
          | true =>
            rw [getAux_prim_transient fuel d rest hmemo hfac (by rw [hspec]),
              getAux_prim_transient fuel d [] hmemo hfac (by rw [hspec])]
            exact ⟨rfl, rfl, rfl, rfl⟩
          | false =>
            rw [getAux_prim_singleton fuel d rest hmemo hfac (by rw [hspec]),
              getAux_prim_singleton fuel d [] hmemo hfac (by rw [hspec])]
            exact ⟨rfl, rfl, rfl, rfl⟩
        | promise =>
          cases t with
          | true =>
            rw [getAux_promise_transient fuel d rest hmemo hfac (by rw [hspec]),
              getAux_promise_transient fuel d [] hmemo hfac (by rw [hspec])]
            exact ⟨rfl, rfl, rfl, rfl⟩
          | false =>
            rw [getAux_promise_singleton fuel d rest hmemo hfac (by rw [hspec]),
              getAux_promise_singleton fuel d [] hmemo hfac (by rw [hspec])]
            exact ⟨rfl, rfl, rfl, rfl⟩
  · intro h1 h2 h3
    exact getAux_parent fuel d rest h1 h2 h3

/-- Closed instantiation of `get_local_precedence`: a store whose own
binding for "A" shadows a parent binding of the same name resolves "A"
locally and leaves the parent frame untouched. -/
theorem get_local_precedence_witness :
    (getAux 1 0 [⟨[("A", 1)], []⟩, ⟨[("A", 2)], []⟩] "A"
        ⟨[(1, ⟨false, FKind.prim ⟨true, false, false⟩⟩),
          (2, ⟨false, FKind.prim ⟨false, false, false⟩⟩)],
          [], 0, [], []⟩).2.1.tail = [⟨[("A", 2)], []⟩]
    ∧ (getAux 1 0 [⟨[("A", 1)], []⟩, ⟨[("A", 2)], []⟩] "A"
        ⟨[(1, ⟨false, FKind.prim ⟨true, false, false⟩⟩),
          (2, ⟨false, FKind.prim ⟨false, false, false⟩⟩)],
          [], 0, [], []⟩).1 =
      (getAux 1 0 [⟨[("A", 1)], []⟩] "A"
        ⟨[(1, ⟨false, FKind.prim ⟨true, false, false⟩⟩),
          (2, ⟨false, FKind.prim ⟨false, false, false⟩⟩)],
          [], 0, [], []⟩).1 := by
  have h := (get_local_precedence 0 0 ⟨[("A", 1)], []⟩ [⟨[("A", 2)], []⟩] "A"
    ⟨[(1, ⟨false, FKind.prim ⟨true, false, false⟩⟩),
      (2, ⟨false, FKind.prim ⟨false, false, false⟩⟩)],
      [], 0, [], []⟩ (by decide)).1 (Or.inr (by decide))
  exact ⟨h.1, h.2.1⟩

theorem iterGet_succ (fuel : Nat) (name : String) (n : Nat) (w : World) :
    iterGet fuel name (n + 1) w = iterGet fuel name n (getW fuel name w).2 :=
  rfl

theorem transient_get_step {fid : Nat} {name : String} {os : ObjSpec}
    (g : Ghost) (hspec : lookupSpec g.facHeap fid = ⟨true, FKind.prim os⟩) :
    getW 1 name ⟨[⟨[(name, fid)], []⟩], g⟩ =
      (Except.ok (Val.obj g.nextId os),
        ⟨[⟨[(name, fid)], []⟩],
          { g with
            nextId := g.nextId + 1,
            invocations := g.invocations ++ [fid],
            transientCreated := g.transientCreated ++ [g.nextId] }⟩) := by
  have h := @getAux_prim_transient ⟨[(name, fid)], []⟩ name g fid os
    0 0 [] rfl (by simp) hspec
  simp only [getW, h]

theorem transient_get_world {fid : Nat} {name : String} {os : ObjSpec}
    (g : Ghost) (hspec : lookupSpec g.facHeap fid = ⟨true, FKind.prim os⟩) :
    (getW 1 name ⟨[⟨[(name, fid)], []⟩], g⟩).2 =
      ⟨[⟨[(name, fid)], []⟩],
        { g with
          nextId := g.nextId + 1,
          invocations := g.invocations ++ [fid],
          transientCreated := g.transientCreated ++ [g.nextId] }⟩ := by
  rw [transient_get_step g hspec]

theorem transient_iter {fid : Nat} {name : String} {os : ObjSpec} :
    ∀ (n : Nat) (g : Ghost),
      lookupSpec g.facHeap fid = ⟨true, FKind.prim os⟩ →
      (iterGet 1 name n ⟨[⟨[(name, fid)], []⟩], g⟩).frames =
          [⟨[(name, fid)], []⟩] ∧
        (iterGet 1 name n ⟨[⟨[(name, fid)], []⟩], g⟩).ghost.invocations =
          g.invocations ++ List.replicate n fid := by
  intro n
  induction n with
  | zero =>
    intro g _
    exact ⟨rfl, by simp [iterGet, iterGetResults]⟩
  | succ n ih =>
    intro g hspec
    obtain ⟨ih1, ih2⟩ := ih
      { g with
        nextId := g.nextId + 1,
        invocations := g.invocations ++ [fid],
        transientCreated := g.transientCreated ++ [g.nextId] } hspec
    constructor
    · rw [iterGet_succ, transient_get_world g hspec]
      exact ih1
    · rw [iterGet_succ, transient_get_world g hspec]
      rw [ih2]
      simp [List.replicate_succ, List.append_assoc]

/-- C5: for a transient binding, every `get` re-invokes the factory and
hands back the freshly produced value directly (the invocation log grows by
the factory, the produced object is new), no memo entry is ever created for
the transient name (the frames are returned untouched, so the memo stays
empty), and N `get` calls leave the invocation counter at exactly N. -/
theorem transient_every_get_reinvokes (fid : Nat) (name : String)
    (os : ObjSpec) :
    (∀ g : Ghost, lookupSpec g.facHeap fid = ⟨true, FKind.prim os⟩ →
      getW 1 name ⟨[⟨[(name, fid)], []⟩], g⟩ =
        (Except.ok (Val.obj g.nextId os),
          ⟨[⟨[(name, fid)], []⟩],
            { g with
              nextId := g.nextId + 1,
              invocations := g.invocations ++ [fid],
              transientCreated := g.transientCreated ++ [g.nextId] }⟩))
    ∧ (∀ n,
        (iterGet 1 name n
          (singleW fid ⟨true, FKind.prim os⟩ name)).ghost.invocations =
        List.replicate n fid)
    ∧ (∀ n,
        (iterGet 1 name n (singleW fid ⟨true, FKind.prim os⟩ name)).frames =
        [⟨[(name, fid)], []⟩]) := by
  have hspec0 : lookupSpec
      (⟨[(fid, ⟨true, FKind.prim os⟩)], [], 0, [], []⟩ : Ghost).facHeap fid =
      ⟨true, FKind.prim os⟩ := by
    simp [lookupSpec]
  refine ⟨fun g h => transient_get_step g h, fun n => ?_, fun n => ?_⟩
  · have h2 := (@transient_iter fid name os n
      ⟨[(fid, ⟨true, FKind.prim os⟩)], [], 0, [], []⟩ hspec0).2
    simpa [singleW] using h2
  · have h1 := (@transient_iter fid name os n
      ⟨[(fid, ⟨true, FKind.prim os⟩)], [], 0, [], []⟩ hspec0).1
    simpa [singleW] using h1

/-- Closed instantiation of `transient_every_get_reinvokes`: three `get`
calls on a transient binding invoke its factory three times and leave the
memo empty. -/
theorem transient_every_get_reinvokes_witness :
    getW 1 "A" ⟨[⟨[("A", 5)], []⟩],
        ⟨[(5, ⟨true, FKind.prim ⟨false, false, false⟩⟩)], [], 0, [], []⟩⟩ =
      (Except.ok (Val.obj 0 ⟨false, false, false⟩),
        ⟨[⟨[("A", 5)], []⟩],
          ⟨[(5, ⟨true, FKind.prim ⟨false, false, false⟩⟩)], [], 1, [5], [0]⟩⟩)
    ∧ (iterGet 1 "A" 3
        (singleW 5 ⟨true, FKind.prim ⟨false, false, false⟩⟩ "A")).ghost.invocations =
      [5, 5, 5] := by
  have h := transient_every_get_reinvokes 5 "A" ⟨false, false, false⟩
  refine ⟨?_, by rw [h.2.1]; rfl⟩
  have h1 := h.1 ⟨[(5, ⟨true, FKind.prim ⟨false, false, false⟩⟩)], [], 0, [], []⟩
    (by decide)
  exact h1

/-! ## Helpers for the asynchronous singleton scenarios -/

theorem iter_fixed {fuel : Nat} {name : String} {w : World}
    {r : Except GErr Val} (hfix : getW fuel name w = (r, w)) :
    ∀ k, iterGetResults fuel name k w = (List.replicate k r, w) := by
  intro k
  induction k with
  | zero => simp [iterGetResults]
  | succ k ih => simp [iterGetResults, hfix, ih, List.replicate_succ]

theorem async_first_get (fid : Nat) (name : String) :
    getW 1 name (singleW fid ⟨false, FKind.promise⟩ name) =
      (Except.ok (Val.promise 0), asyncW1 fid name) := by
  have h := @getAux_promise_singleton ⟨[(name, fid)], []⟩ name
    ⟨[(fid, ⟨false, FKind.promise⟩)], [], 0, [], []⟩ fid
    0 0 [] rfl (by simp) (by simp [lookupSpec])
  simp only [getW, singleW, h]
  simp [asyncW1, aset]

theorem async_pending_fixed (fid : Nat) (name : String) :
    getW 1 name (asyncW1 fid name) =
      (Except.ok (Val.promise 0), asyncW1 fid name) := by
  have h := @getAux_memo_plain
    ⟨[(name, fid)], [(name, ⟨false, Val.promise 0⟩)]⟩ name
    ⟨false, Val.promise 0⟩
    ⟨[(fid, ⟨false, FKind.promise⟩)],
      [(0, ⟨PStatus.pending, [(0, name)]⟩)], 1, [fid], []⟩
    0 0 [] (by simp) rfl
  simp only [getW, asyncW1, h]

theorem settle_ok_eq (fid : Nat) (name : String) (os : ObjSpec) :
    settle (asyncW1 fid name) 0 (Outcome.ok os) = asyncW2 fid name os := by
  simp [settle, asyncW1, asyncW2, applyContOk, modFrame, aset]

theorem settle_err_eq (fid : Nat) (name : String) (e : Nat) :
    settle (asyncW1 fid name) 0 (Outcome.err e) = asyncWErr fid name e := by
  simp [settle, asyncW1, asyncWErr, applyContErr, modFrame, aerase, aset]

theorem marker_iter {name : String} {f : Frame} {v : Val}
    (hmk : alook f.memo name = some ⟨true, v⟩) :
    ∀ (k : Nat) (rest : List Frame) (g : Ghost),
      (iterGet 1 name k ⟨f :: rest, g⟩).frames = f :: rest ∧
        (iterGet 1 name k ⟨f :: rest, g⟩).ghost.invocations = g.invocations := by
  intro k
  induction k with
  | zero => intro rest g; exact ⟨rfl, rfl⟩
  | succ k ih =>
    intro rest g
    have hstep : (getW 1 name ⟨f :: rest, g⟩).2 =
        ⟨f :: rest,
          { g with
            nextId := g.nextId + 1,
            promises := g.promises ++
              [(g.nextId, ⟨PStatus.fulfilled v, []⟩)] }⟩ := by
      have h := @getAux_memo_marker f name ⟨true, v⟩ g 0 0 rest hmk rfl
      simp only [getW, h]
    rw [iterGet_succ, hstep]
    exact ih rest _

theorem prim_first_get (fid : Nat) (name : String) (os : ObjSpec) :
    getW 1 name (singleW fid ⟨false, FKind.prim os⟩ name) =
      (Except.ok (Val.obj 0 os),
        ⟨[⟨[(name, fid)], [(name, ⟨false, Val.obj 0 os⟩)]⟩],
          ⟨[(fid, ⟨false, FKind.prim os⟩)], [], 1, [fid], []⟩⟩) := by
  have h := @getAux_prim_singleton ⟨[(name, fid)], []⟩ name
    ⟨[(fid, ⟨false, FKind.prim os⟩)], [], 0, [], []⟩ fid os
    0 0 [] rfl (by simp) (by simp [lookupSpec])
  simp only [getW, singleW, h]
  simp [aset]

theorem prim_fixed (fid : Nat) (name : String) (os : ObjSpec) :
    getW 1 name
        ⟨[⟨[(name, fid)], [(name, ⟨false, Val.obj 0 os⟩)]⟩],
          ⟨[(fid, ⟨false, FKind.prim os⟩)], [], 1, [fid], []⟩⟩ =
      (Except.ok (Val.obj 0 os),
        ⟨[⟨[(name, fid)], [(name, ⟨false, Val.obj 0 os⟩)]⟩],
          ⟨[(fid, ⟨false, FKind.prim os⟩)], [], 1, [fid], []⟩⟩) := by
  have h := @getAux_memo_plain
    ⟨[(name, fid)], [(name, ⟨false, Val.obj 0 os⟩)]⟩ name
    ⟨false, Val.obj 0 os⟩
    ⟨[(fid, ⟨false, FKind.prim os⟩)], [], 1, [fid], []⟩
    0 0 [] (by simp) rfl
  simp only [getW, h]

/-- C1: per store, a singleton factory runs at most once per successful
resolution cycle. The first `get` invokes the asynchronous factory once and
memoizes its pending promise (id 0) immediately; the promise carries the
single success/failure continuation; every further `get` issued before
settlement returns the identical pending promise with the world unchanged
(k calls return k copies of promise 0 and invoke nothing); successful
settlement replaces the memo entry with a resolved marker; from a resolved
marker every later `get` returns a fresh already-fulfilled promise wrapping
the cached value, re-invoking nothing; hence k further `get` calls after
settlement leave the invocation log at the single original invocation, and
for every N at least 1, N `get` calls on a singleton binding (asynchronous
or synchronous) leave the invocation counter at exactly one entry. -/
theorem singleton_factory_once (fid : Nat) (name : String) :
    (getW 1 name (singleW fid ⟨false, FKind.promise⟩ name) =
      (Except.ok (Val.promise 0), asyncW1 fid name))
    ∧ (alook (asyncW1 fid name).ghost.promises 0 =
        some ⟨PStatus.pending, [(0, name)]⟩)
    ∧ (∀ k, iterGetResults 1 name k (asyncW1 fid name) =
        (List.replicate k (Except.ok (Val.promise 0)), asyncW1 fid name))
    ∧ (∀ os, settle (asyncW1 fid name) 0 (Outcome.ok os) =
        asyncW2 fid name os)
    ∧ (∀ (fuel d : Nat) (f : Frame) (rest : List Frame) (g : Ghost) (v : Val),
        alook f.memo name = some ⟨true, v⟩ →
        getAux (fuel + 1) d (f :: rest) name g =
          (Except.ok (Val.promise g.nextId), f :: rest,
            { g with
              nextId := g.nextId + 1,
              promises := g.promises ++
                [(g.nextId, ⟨PStatus.fulfilled v, []⟩)] }))
    ∧ (∀ os k,
        (iterGet 1 name k (asyncW2 fid name os)).ghost.invocations = [fid] ∧
          (iterGet 1 name k (asyncW2 fid name os)).frames =
            (asyncW2 fid name os).frames)
    ∧ (∀ n, 1 ≤ n →
        (iterGet 1 name n
          (singleW fid ⟨false, FKind.promise⟩ name)).ghost.invocations = [fid])
    ∧ (∀ os n, 1 ≤ n →
        (iterGet 1 name n
          (singleW fid ⟨false, FKind.prim os⟩ name)).ghost.invocations =
        [fid]) := by
  refine ⟨async_first_get fid name, by simp [asyncW1],
    iter_fixed (async_pending_fixed fid name), settle_ok_eq fid name,
    ?_, ?_, ?_, ?_⟩
  · intro fuel d f rest g v hmk
    exact getAux_memo_marker fuel d rest hmk rfl
  · intro os k
    have h := @marker_iter name
      ⟨[(name, fid)], [(name, ⟨true, Val.obj 1 os⟩)]⟩
      (Val.obj 1 os) (by simp) k []
      ⟨[(fid, ⟨false, FKind.promise⟩)],
        [(0, ⟨PStatus.fulfilled (Val.obj 1 os), []⟩)], 2, [fid], []⟩
    constructor
    · exact h.2
    · exact h.1
  · intro n hn
    obtain ⟨m, rfl⟩ : ∃ m, n = m + 1 := ⟨n - 1, by omega⟩
    rw [iterGet_succ,
      show (getW 1 name (singleW fid ⟨false, FKind.promise⟩ name)).2 =
        asyncW1 fid name from by rw [async_first_get]]
    show (iterGetResults 1 name m (asyncW1 fid name)).2.ghost.invocations = _
    rw [iter_fixed (async_pending_fixed fid name) m]
    rfl
  · intro os n hn
    obtain ⟨m, rfl⟩ : ∃ m, n = m + 1 := ⟨n - 1, by omega⟩
    rw [iterGet_succ,
      show (getW 1 name (singleW fid ⟨false, FKind.prim os⟩ name)).2 =
        ⟨[⟨[(name, fid)], [(name, ⟨false, Val.obj 0 os⟩)]⟩],
          ⟨[(fid, ⟨false, FKind.prim os⟩)], [], 1, [fid], []⟩⟩ from by
        rw [prim_first_get]]
    show (iterGetResults 1 name m _).2.ghost.invocations = _
    rw [iter_fixed (prim_fixed fid name os) m]

/-- Closed instantiation of `singleton_factory_once`: two `get` calls on an
asynchronous singleton leave the invocation log at one entry, and a `get`
on a resolved marker re-wraps the cached object into a fresh fulfilled
promise. -/
theorem singleton_factory_once_witness :
    (iterGet 1 "A" 2
      (singleW 3 ⟨false, FKind.promise⟩ "A")).ghost.invocations = [3]
    ∧ getAux 1 0
        [⟨[("A", 3)], [("A", ⟨true, Val.obj 1 ⟨false, false, false⟩⟩)]⟩] "A"
        ⟨[(3, ⟨false, FKind.promise⟩)], [], 5, [3], []⟩ =
      (Except.ok (Val.promise 5),
        [⟨[("A", 3)], [("A", ⟨true, Val.obj 1 ⟨false, false, false⟩⟩)]⟩],
        ⟨[(3, ⟨false, FKind.promise⟩)],
          [(5, ⟨PStatus.fulfilled (Val.obj 1 ⟨false, false, false⟩), []⟩)],
          6, [3], []⟩) := by
  have h := singleton_factory_once 3 "A"
  refine ⟨h.2.2.2.2.2.2.1 2 (by decide), ?_⟩
  have h5 := h.2.2.2.2.1 0 0
    ⟨[("A", 3)], [("A", ⟨true, Val.obj 1 ⟨false, false, false⟩⟩)]⟩ []
    ⟨[(3, ⟨false, FKind.promise⟩)], [], 5, [3], []⟩
    (Val.obj 1 ⟨false, false, false⟩) (by simp)
  simpa using h5

/-- C3: if the singleton's asynchronous computation rejects, every `get`
issued before settlement had returned the identical pending promise (so all
of them observe this failure), the rejection deletes the memo entry
entirely, the promise records the caller-visible error verbatim, and a
subsequent `get` re-invokes the factory from scratch, producing a fresh
pending promise and a second invocation-log entry. -/
theorem async_failure_clears_memo (fid : Nat) (name : String) (e : Nat)
    (k : Nat) :
    (iterGetResults 1 name k (asyncW1 fid name) =
      (List.replicate k (Except.ok (Val.promise 0)), asyncW1 fid name))
    ∧ settle (asyncW1 fid name) 0 (Outcome.err e) = asyncWErr fid name e
    ∧ ((asyncWErr fid name e).frames.headD ⟨[], []⟩).memo = []
    ∧ alook (asyncWErr fid name e).ghost.promises 0 =
        some ⟨PStatus.rejected e, []⟩
    ∧ getW 1 name (asyncWErr fid name e) =
        (Except.ok (Val.promise 1),
          ⟨[⟨[(name, fid)], [(name, ⟨false, Val.promise 1⟩)]⟩],
            ⟨[(fid, ⟨false, FKind.promise⟩)],
              [(0, ⟨PStatus.rejected e, []⟩),
                (1, ⟨PStatus.pending, [(0, name)]⟩)], 2, [fid, fid], []⟩⟩) := by
  refine ⟨iter_fixed (async_pending_fixed fid name) k,
    settle_err_eq fid name e, rfl, by simp [asyncWErr], ?_⟩
  have h := @getAux_promise_singleton ⟨[(name, fid)], []⟩ name
    ⟨[(fid, ⟨false, FKind.promise⟩)],
      [(0, ⟨PStatus.rejected e, []⟩)], 1, [fid], []⟩ fid
    0 0 [] rfl (by simp) (by simp [lookupSpec])
  simp only [getW, asyncWErr, h]
  simp [aset]

/-- C8 counterexample: `addTransient` tags the factory *value* itself
(`value.transient = true`), so when the very same factory value is shared
between branches extended from a common prefix, extending one branch with
`addTransient` flips the singleton/transient kind observed through the
other branch: with the shared factory 0 (initially a singleton), the
definition obtained by `add d "A" 0` sees two `get "A"` calls invoke the
factory once under the original heap but twice — transient behavior —
after the sibling `addTransient d "B" 0` mutated the shared factory. -/
theorem add_branch_interference_counterexample :
    (lookupSpec [(0, ⟨false, FKind.prim ⟨false, false, false⟩⟩)] 0).transient =
        false
    ∧ (add defineStore "A" 0
        [(0, ⟨false, FKind.prim ⟨false, false, false⟩⟩)]).1 =
      Except.ok ⟨[("A", 0)], []⟩
    ∧ addTransient defineStore "B" 0
        [(0, ⟨false, FKind.prim ⟨false, false, false⟩⟩)] =
      (Except.ok ⟨[("B", 0)], []⟩,
        [(0, ⟨true, FKind.prim ⟨false, false, false⟩⟩)])
    ∧ (iterGet 1 "A" 2
        ⟨finalize ⟨[("A", 0)], []⟩,
          ⟨[(0, ⟨false, FKind.prim ⟨false, false, false⟩⟩)],
            [], 0, [], []⟩⟩).ghost.invocations = [0]
    ∧ (iterGet 1 "A" 2
        ⟨finalize ⟨[("A", 0)], []⟩,
          ⟨[(0, ⟨true, FKind.prim ⟨false, false, false⟩⟩)],
            [], 0, [], []⟩⟩).ghost.invocations = [0, 0] := by
  decide

/-- C8 amended: `add` and `addTransient` never mutate the receiving
definition — each returns a new definition value with the binding appended
— and `add` leaves the factory heap untouched entirely; `addTransient`'s
only heap effect is setting the transient tag of the factory value it was
handed, so as long as that factory value is not shared with bindings of
other branches (distinct factory references per binding, the ordinary
usage), extending one branch changes neither the bindings nor the observed
factory specs of any other definition built from the shared prefix. -/
theorem add_no_interference_for_distinct_factories (sd : StoreDefinition)
    (name : String) (fid : Nat) (h : List (Nat × FacSpec)) :
    ((add sd name fid h).2 = h)
    ∧ (alook sd.factories name = none → hasChain sd.parentFrames name = false →
        (add sd name fid h).1 =
          Except.ok ⟨sd.factories ++ [(name, fid)], sd.parentFrames⟩)
    ∧ ((addTransient sd name fid h).2 = setTransient h fid)
    ∧ (∀ g : Nat, g ≠ fid →
        alook (addTransient sd name fid h).2 g = alook h g) := by
  have hpass : ∀ h' : List (Nat × FacSpec), (add sd name fid h').2 = h' := by
    intro h'
    by_cases hc :
        ((alook sd.factories name).isSome || hasChain sd.parentFrames name) = true
    · simp [add, hc]
    · simp [add, hc]
  refine ⟨hpass h, fun h1 h2 => by simp [add, h1, h2], hpass (setTransient h fid),
    fun g hg => ?_⟩
  show alook (add sd name fid (setTransient h fid)).2 g = alook h g
  rw [hpass (setTransient h fid)]
  exact alook_aset_ne h fid g _ (fun he => hg he.symm)

/-- Closed instantiation of `add_no_interference_for_distinct_factories`:
tagging factory 1 transient leaves factory 0's heap record unchanged. -/
theorem add_no_interference_witness :
    (add ⟨[("A", 0)], []⟩ "B" 1
        [(0, ⟨false, FKind.prim ⟨true, false, false⟩⟩),
          (1, ⟨false, FKind.prim ⟨false, false, false⟩⟩)]).1 =
      Except.ok ⟨[("A", 0), ("B", 1)], []⟩
    ∧ alook (addTransient ⟨[("A", 0)], []⟩ "B" 1
        [(0, ⟨false, FKind.prim ⟨true, false, false⟩⟩),
          (1, ⟨false, FKind.prim ⟨false, false, false⟩⟩)]).2 0 =
      some ⟨false, FKind.prim ⟨true, false, false⟩⟩ := by
  have h := add_no_interference_for_distinct_factories ⟨[("A", 0)], []⟩ "B" 1
    [(0, ⟨false, FKind.prim ⟨true, false, false⟩⟩),
      (1, ⟨false, FKind.prim ⟨false, false, false⟩⟩)]
  refine ⟨h.2.1 (by decide) (by decide), ?_⟩
  rw [h.2.2.2 0 (by decide)]
  decide

/-- C10 counterexample: a singleton factory of the shape
`(store) => store.get("A")` — taken from the repository's own tests — hands
the object produced by the transient factory "A" to the singleton binding
"B", which memoizes it; synchronous disposal of the store then tears that
transient-produced object (id 0, recorded in the ghost transient log) down. -/
theorem transient_value_disposed_counterexample :
    ((getW 2 "B"
        ⟨[⟨[("A", 0), ("B", 1)], []⟩],
          ⟨[(0, ⟨true, FKind.prim ⟨true, false, false⟩⟩),
            (1, ⟨false, FKind.aliasOf "A"⟩)],
            [], 0, [], []⟩⟩).2.ghost.transientCreated = [0])
    ∧ (disposeSync
        (getW 2 "B"
          ⟨[⟨[("A", 0), ("B", 1)], []⟩],
            ⟨[(0, ⟨true, FKind.prim ⟨true, false, false⟩⟩),
              (1, ⟨false, FKind.aliasOf "A"⟩)],
              [], 0, [], []⟩⟩).2.frames).1 = [DEvent.syncDispose 0] := by
  decide

/-- C10 amended: a `get` on a transient binding creates no memo entry (the
frames are returned exactly as they were), and both disposal passes only
ever touch memoized values — every synchronous teardown event and every
started or fallback teardown of the asynchronous pass names the value of
some memo entry. Consequently a transient-produced value is torn down only
when some singleton binding additionally memoized it (for example a
singleton factory returned it, as in the counterexample); a
transient-produced value that no singleton memoized is never torn down. -/
theorem transient_values_disposed_only_if_memoized :
    (∀ (fuel d : Nat) (f : Frame) (rest : List Frame) (name : String)
        (g : Ghost) (fid : Nat) (os : ObjSpec),
      alook f.memo name = none → alook f.factories name = some fid →
      lookupSpec g.facHeap fid = ⟨true, FKind.prim os⟩ →
      (getAux (fuel + 1) d (f :: rest) name g).2.1 = f :: rest)
    ∧ (∀ (m : List (String × MemoEntry)) (ev : DEvent),
        ev ∈ (disposeSyncFrame m).1 →
        ∃ p ∈ m, ev = DEvent.syncDispose (valId p.2.value))
    ∧ (∀ (m : List (String × MemoEntry)) (i : Nat),
        i ∈ (disposeAsyncFrame m).1 → ∃ p ∈ m, i = valId p.2.value)
    ∧ (∀ (m : List (String × MemoEntry)) (i : Nat),
        i ∈ (disposeAsyncFrame m).2.1 → ∃ p ∈ m, i = valId p.2.value) := by
  refine ⟨?_, ?_, ?_, ?_⟩
  · intro fuel d f rest name g fid os hmemo hfac hspec
    rw [getAux_prim_transient fuel d rest hmemo hfac hspec]
  · intro m
    induction m with
    | nil =>
      intro ev hev
      simp [disposeSyncFrame] at hev
    | cons p rest ih =>
      intro ev hev
      by_cases hs : (valSpec p.2.value).hasSyncDispose
      · rw [show disposeSyncFrame (p :: rest) =
            (DEvent.syncDispose (valId p.2.value) :: (disposeSyncFrame rest).1,
              (disposeSyncFrame rest).2) from by
          simp [disposeSyncFrame, hs]] at hev
        rcases List.mem_cons.mp hev with h1 | h1
        · exact ⟨p, List.mem_cons_self _ _, h1⟩
        · obtain ⟨q, hq, hq2⟩ := ih _ h1
          exact ⟨q, List.mem_cons_of_mem _ hq, hq2⟩
      · by_cases ha : (valSpec p.2.value).hasAsyncDispose
        · rw [show disposeSyncFrame (p :: rest) =
              ([], some DErr.syncDisposeOfAsyncResource) from by
            simp [disposeSyncFrame, hs, ha]] at hev
          simp at hev
        · rw [show disposeSyncFrame (p :: rest) = disposeSyncFrame rest from by
            simp [disposeSyncFrame, hs, ha]] at hev
          obtain ⟨q, hq, hq2⟩ := ih _ hev
          exact ⟨q, List.mem_cons_of_mem _ hq, hq2⟩
  · intro m
    induction m with
    | nil =>
      intro i hi
      simp [disposeAsyncFrame] at hi
    | cons p rest ih =>
      intro i hi
      by_cases ha : (valSpec p.2.value).hasAsyncDispose
      · rw [show (disposeAsyncFrame (p :: rest)).1 =
            valId p.2.value :: (disposeAsyncFrame rest).1 from by
          simp [disposeAsyncFrame, ha]] at hi
        rcases List.mem_cons.mp hi with h1 | h1
        · exact ⟨p, List.mem_cons_self _ _, h1⟩
        · obtain ⟨q, hq, hq2⟩ := ih _ h1
          exact ⟨q, List.mem_cons_of_mem _ hq, hq2⟩
      · by_cases hs : (valSpec p.2.value).hasSyncDispose
        · rw [show (disposeAsyncFrame (p :: rest)).1 =
              (disposeAsyncFrame rest).1 from by
            simp [disposeAsyncFrame, ha, hs]] at hi
          obtain ⟨q, hq, hq2⟩ := ih _ hi
          exact ⟨q, List.mem_cons_of_mem _ hq, hq2⟩
        · rw [show (disposeAsyncFrame (p :: rest)).1 =
              (disposeAsyncFrame rest).1 from by
            simp [disposeAsyncFrame, ha, hs]] at hi
          obtain ⟨q, hq, hq2⟩ := ih _ hi
          exact ⟨q, List.mem_cons_of_mem _ hq, hq2⟩
  · intro m
    induction m with
    | nil =>
      intro i hi
      simp [disposeAsyncFrame] at hi
    | cons p rest ih =>
      intro i hi
      by_cases ha : (valSpec p.2.value).hasAsyncDispose
      · rw [show (disposeAsyncFrame (p :: rest)).2.1 =
            (disposeAsyncFrame rest).2.1 from by
          simp [disposeAsyncFrame, ha]] at hi
        obtain ⟨q, hq, hq2⟩ := ih _ hi
        exact ⟨q, List.mem_cons_of_mem _ hq, hq2⟩
      · by_cases hs : (valSpec p.2.value).hasSyncDispose
        · rw [show (disposeAsyncFrame (p :: rest)).2.1 =
              valId p.2.value :: (disposeAsyncFrame rest).2.1 from by
            simp [disposeAsyncFrame, ha, hs]] at hi
          rcases List.mem_cons.mp hi with h1 | h1
          · exact ⟨p, List.mem_cons_self _ _, h1⟩
          · obtain ⟨q, hq, hq2⟩ := ih _ h1
            exact ⟨q, List.mem_cons_of_mem _ hq, hq2⟩
        · rw [show (disposeAsyncFrame (p :: rest)).2.1 =
              (disposeAsyncFrame rest).2.1 from by
            simp [disposeAsyncFrame, ha, hs]] at hi
          obtain ⟨q, hq, hq2⟩ := ih _ hi
          exact ⟨q, List.mem_cons_of_mem _ hq, hq2⟩

/-- Closed instantiation of `transient_values_disposed_only_if_memoized`:
a direct `get` on a transient binding leaves the frames (hence the memo)
untouched, and a teardown event of a concrete memo names a memoized value. -/
theorem transient_values_disposed_only_if_memoized_witness :
    (getAux 1 0 [⟨[("A", 0)], []⟩] "A"
        ⟨[(0, ⟨true, FKind.prim ⟨true, false, false⟩⟩)],
          [], 0, [], []⟩).2.1 = [⟨[("A", 0)], []⟩]
    ∧ ∃ p ∈ [("B", (⟨false, Val.obj 4 ⟨true, false, false⟩⟩ : MemoEntry))],
        DEvent.syncDispose 4 = DEvent.syncDispose (valId p.2.value) := by
  have h := transient_values_disposed_only_if_memoized
  refine ⟨h.1 0 0 ⟨[("A", 0)], []⟩ [] "A"
    ⟨[(0, ⟨true, FKind.prim ⟨true, false, false⟩⟩)], [], 0, [], []⟩ 0
    ⟨true, false, false⟩ rfl (by decide) (by decide), ?_⟩
  exact h.2.1 [("B", ⟨false, Val.obj 4 ⟨true, false, false⟩⟩)]
    (DEvent.syncDispose 4) (by decide)

end ServiceStore
